import Mathlib

/-!
Verification of the grammar extractor in
`src/lib/grammar/anc/masc/anc_masc_ptb_extract.py`.

The script itself contains only the extraction loop: for each sentence tree
whose root label is not `"CODE"`, it converts the tree to Chomsky Normal Form,
then adds the canonical representation of each production to the `terminal`
set (lexical productions) or the `binary` set (all other productions); any
exception during normalization or extraction skips the sentence.

The tree data model, the CNF conversion and the production extraction live in
an external library; following the spec (sections 3, 4.1 and 9), those are
modelled here from the spec's description.  Failure of the normalization step
is modelled as an `Option` result (spec section 9: "model as a
`Result<NormalizedTree, NormalizationFailure>`").  The spec requires the
canonical string representation of a production to render the LHS and the
ordered RHS symbols unambiguously (section 4.1 step 5), so productions are
used directly as their own canonical representations, and the two output sets
are finite sets of productions.
-/

namespace Glif

/-- A parse tree, from the spec's data model: an internal node carries a
non-terminal label and an ordered list of children; a leaf is a terminal
token. -/
inductive PTree : Type
  | node (label : String) (children : List PTree)
  | leaf (token : String)
deriving Repr

/-- A right-hand-side symbol of a production: a non-terminal label or a
terminal token. -/
inductive Symbol : Type
  | nt (label : String)
  | tm (token : String)
deriving DecidableEq, Repr

/-- A grammar production `LHS -> RHS_1 ... RHS_k`, from the spec's data
model. -/
structure Production : Type where
  lhs : String
  rhs : List Symbol
deriving DecidableEq, Repr

/-- The root label of a tree, as `sent.label()` in the script.  (A bare leaf
never occurs as a sentence; its token stands in for a label.) -/
def PTree.label : PTree → String
  | .node l _ => l
  | .leaf w => w

/-- Modelled from the spec: a production is lexical when its RHS is a single
terminal token (section 4.1 step 4: "If it is lexical (RHS is a single
terminal token)").  This is the `p.is_lexical()` test of the script. -/
def Production.is_lexical (p : Production) : Bool :=
  match p.rhs with
  | [Symbol.tm _] => true
  | _ => false

/-- The RHS symbol contributed by an immediate child: a child node gives its
non-terminal label, a child leaf gives its terminal token. -/
def childSymbol : PTree → Symbol
  | .node l _ => Symbol.nt l
  | .leaf w => Symbol.tm w

mutual

/-- Modelled from the spec: the productions of a tree, one per internal node,
over that node and its immediate children (spec section 3: "a grammar rule
derived from one parent node and its immediate children").  This is the
`sent.productions()` call of the script. -/
def productions : PTree → List Production
  | .leaf _ => []
  | .node l cs => { lhs := l, rhs := cs.map childSymbol } :: prodsOf cs

/-- The productions of a list of subtrees, in order. -/
def prodsOf : List PTree → List Production
  | [] => []
  | c :: cs => productions c ++ prodsOf cs

end

/-- The labels of a list of children, failing if any child is a terminal
leaf (a node mixing a leaf among several children has no binary/lexical
normal form, spec section 4.1 step 2). -/
def childLabels : List PTree → Option (List String)
  | [] => some []
  | PTree.node l _ :: cs => (childLabels cs).map (fun ls => l :: ls)
  | PTree.leaf _ :: _ => none

/-- Modelled from the spec: the synthetic non-terminal label introduced while
binarizing, e.g. `X|<Y-Z>` (spec section 4.1 step 2). -/
def synthLabel (orig : String) (labs : List String) : String :=
  orig ++ "|<" ++ String.intercalate "-" labs ++ ">"

/-- Modelled from the spec: the right-branching cascade of binary nodes that
replaces the children of a node with more than two children (spec section 4.1
step 2).  `labs` are the labels of `cs`, used to name the synthetic nodes. -/
def cascade (orig : String) : List String → List PTree → List PTree
  | _ :: labs, c :: cs =>
    if cs.length ≤ 1 then c :: cs
    else [c, PTree.node (synthLabel orig labs) (cascade orig labs cs)]
  | _, cs => cs

/-- The children of a normalized node: left unchanged when there are at most
two, otherwise factored into a binary cascade. -/
def factorChildren (orig : String) (labs : List String) (cs : List PTree) :
    List PTree :=
  if cs.length ≤ 2 then cs else cascade orig labs cs

mutual

/-- Modelled from the spec: conversion of a tree to Chomsky Normal Form
(spec section 4.1 step 2), the `sent.chomsky_normal_form()` call of the
script.  Every node with more than two children is rewritten into a
right-branching cascade of binary nodes with synthetic labels; genuine unary
rules are left alone (an implementation choice the spec allows).
Normalization fails (`none`) on a degenerate tree the routine cannot bring to
the required binary/lexical shape: a node with zero children, or a node
mixing terminal leaves among its children (spec section 4.1 step 3 and
section 7). -/
def chomsky_normal_form : PTree → Option PTree
  | .leaf w => some (.leaf w)
  | .node l cs =>
    match cs with
    | [] => none
    | [.leaf w] => some (.node l [.leaf w])
    | _ =>
      match childLabels cs with
      | none => none
      | some labs =>
        (cnfChildren cs).map (fun cs2 => PTree.node l (factorChildren l labs cs2))

/-- Normalization of each child in turn, failing if any child fails. -/
def cnfChildren : List PTree → Option (List PTree)
  | [] => some []
  | c :: cs =>
    match chomsky_normal_form c, cnfChildren cs with
    | some c2, some cs2 => some (c2 :: cs2)
    | _, _ => none

end

/-- The accumulator state of the script: the two output sets `terminal` and
`binary`.  Python sets are unordered and deduplicated, hence finite sets. -/
structure ExtractState : Type where
  terminal : Finset Production
  binary : Finset Production
deriving DecidableEq

/-- One production is routed to exactly one set, as in the script:
`if p.is_lexical(): terminal.add(...) else: binary.add(...)`. -/
def addProduction (st : ExtractState) (p : Production) : ExtractState :=
  if p.is_lexical then { st with terminal := insert p st.terminal }
  else { st with binary := insert p st.binary }

/-- The body of the `try` block: normalize the sentence and add every
production of the normalized tree; a normalization failure (the modelled
exception) leaves the state untouched, as `except Exception: pass` does. -/
def processTree (st : ExtractState) (sent : PTree) : ExtractState :=
  match chomsky_normal_form sent with
  | some t => (productions t).foldl addProduction st
  | none => st

/-- One iteration of the sentence loop: the `sent.label() != 'CODE'` guard
around the `try` block. -/
def processSentence (st : ExtractState) (sent : PTree) : ExtractState :=
  if PTree.label sent ≠ "CODE" then processTree st sent else st

/-- The whole extraction run over a corpus, given as the list of sentence
trees the corpus reader yields (the reader itself is an out-of-scope external
collaborator, spec section 6), starting from two empty sets. -/
def extract (sents : List PTree) : ExtractState :=
  sents.foldl processSentence { terminal := ∅, binary := ∅ }

/-- The productions a single sentence contributes: none if its root label is
`CODE` or normalization fails, otherwise the productions of its normalized
tree. -/
def sentenceProds (sent : PTree) : List Production :=
  if PTree.label sent ≠ "CODE" then
    match chomsky_normal_form sent with
    | some t => productions t
    | none => []
  else []

/-! ### Shape of the productions of a normalized tree -/

/-- The CNF shape requirement on a single production (spec section 4.1
step 2 together with the unary rules the implementation keeps): either a
lexical production with a single terminal token on the RHS, or a rule with
one or two RHS symbols, all of them non-terminal labels. -/
def GoodProd (p : Production) : Prop :=
  (∃ w, p.rhs = [Symbol.tm w]) ∨
    ((p.rhs.length = 1 ∨ p.rhs.length = 2) ∧ ∀ s ∈ p.rhs, ∃ a, s = Symbol.nt a)

theorem mem_prodsOf {p : Production} :
    ∀ {cs : List PTree}, p ∈ prodsOf cs ↔ ∃ c ∈ cs, p ∈ productions c := by
  intro cs
  induction cs with
  | nil => simp [prodsOf]
  | cons c cs ih => simp [prodsOf, ih]

theorem childLabels_length :
    ∀ {cs : List PTree} {labs : List String},
      childLabels cs = some labs → labs.length = cs.length := by
  intro cs
  induction cs with
  | nil => intro labs h; simp [childLabels] at h; simp [h]
  | cons c cs ih =>
    intro labs h
    cases c with
    | leaf w => simp [childLabels] at h
    | node a b =>
      simp only [childLabels, Option.map_eq_some'] at h
      obtain ⟨ls, hls, rfl⟩ := h
      simp [ih hls]

theorem childLabels_nodes :
    ∀ {cs : List PTree} {labs : List String},
      childLabels cs = some labs → ∀ c ∈ cs, ∃ a b, c = PTree.node a b := by
  intro cs
  induction cs with
  | nil => simp
  | cons c cs ih =>
    intro labs h c2 hc2
    cases c with
    | leaf w => simp [childLabels] at h
    | node a b =>
      simp only [childLabels, Option.map_eq_some'] at h
      obtain ⟨ls, hls, rfl⟩ := h
      rcases List.mem_cons.mp hc2 with h2 | h2
      · exact ⟨a, b, h2⟩
      · exact ih hls c2 h2

/-- A successfully normalized node keeps its label and stays a node. -/
theorem cnf_node_shape {a : String} {b : List PTree} {u : PTree}
    (h : chomsky_normal_form (PTree.node a b) = some u) :
    ∃ ds, u = PTree.node a ds := by
  cases b with
  | nil => simp [chomsky_normal_form] at h
  | cons c b =>
    cases c with
    | leaf w =>
      cases b with
      | nil =>
        simp only [chomsky_normal_form] at h
        exact ⟨[PTree.leaf w], (Option.some_inj.mp h).symm⟩
      | cons c2 b2 => simp [chomsky_normal_form, childLabels] at h
    | node a2 b2 =>
      simp only [chomsky_normal_form] at h
      cases hcl : childLabels (PTree.node a2 b2 :: b) with
      | none => rw [hcl] at h; simp at h
      | some labs =>
        rw [hcl] at h
        simp only [Option.map_eq_some'] at h
        obtain ⟨cs2, _, rfl⟩ := h
        exact ⟨_, rfl⟩

theorem cnfChildren_length :
    ∀ {cs cs2 : List PTree}, cnfChildren cs = some cs2 → cs2.length = cs.length := by
  intro cs
  induction cs with
  | nil => intro cs2 h; simp [cnfChildren] at h; simp [h]
  | cons c cs ih =>
    intro cs2 h
    simp only [cnfChildren] at h
    cases h1 : chomsky_normal_form c with
    | none => rw [h1] at h; simp at h
    | some c2 =>
      cases h2 : cnfChildren cs with
      | none => rw [h1, h2] at h; simp at h
      | some cs3 =>
        rw [h1, h2] at h
        obtain rfl := Option.some_inj.mp h.symm
        simp [ih h2]

theorem cnfChildren_mem :
    ∀ {cs cs2 : List PTree}, cnfChildren cs = some cs2 →
      ∀ c2 ∈ cs2, ∃ c ∈ cs, chomsky_normal_form c = some c2 := by
  intro cs
  induction cs with
  | nil => intro cs2 h; simp [cnfChildren] at h; simp [h]
  | cons c cs ih =>
    intro cs2 h c2 hc2
    simp only [cnfChildren] at h
    cases h1 : chomsky_normal_form c with
    | none => rw [h1] at h; simp at h
    | some c3 =>
      cases h2 : cnfChildren cs with
      | none => rw [h1, h2] at h; simp at h
      | some cs3 =>
        rw [h1, h2] at h
        obtain rfl := Option.some_inj.mp h.symm
        rcases List.mem_cons.mp hc2 with h3 | h3
        · exact ⟨c, List.mem_cons_self _ _, h3 ▸ h1⟩
        · obtain ⟨c4, hc4, hcnf⟩ := ih h2 c2 h3
          exact ⟨c4, List.mem_cons_of_mem _ hc4, hcnf⟩

/-- The cascade that binarizes a long child list: the new top node has
exactly two non-terminal children, and every production below the cascade is
either a fresh binary pair or a production of one of the original
subtrees. -/
theorem cascade_good (orig : String) :
    ∀ (ds : List PTree) (labs : List String),
      labs.length = ds.length → 2 ≤ ds.length →
      (∀ c ∈ ds, ∃ a b, c = PTree.node a b) →
      (∃ s1 s2, (cascade orig labs ds).map childSymbol = [Symbol.nt s1, Symbol.nt s2]) ∧
        (∀ p ∈ prodsOf (cascade orig labs ds),
          (∃ s1 s2, p.rhs = [Symbol.nt s1, Symbol.nt s2]) ∨ ∃ c ∈ ds, p ∈ productions c) := by
  intro ds
  induction ds with
  | nil => intro labs _ h2; simp at h2
  | cons c ds ih =>
    intro labs hlen h2 hnodes
    cases labs with
    | nil => simp at hlen
    | cons a labs =>
      by_cases hle : ds.length ≤ 1
      · have hds : ds.length = 1 := by
          simp at h2; omega
        obtain ⟨c2, rfl⟩ : ∃ c2, ds = [c2] := by
          cases ds with
          | nil => simp at hds
          | cons x xs => cases xs with
            | nil => exact ⟨x, rfl⟩
            | cons y ys => simp at hds
        obtain ⟨a1, b1, rfl⟩ := hnodes c (by simp)
        obtain ⟨a2, b2, rfl⟩ := hnodes c2 (by simp)
        constructor
        · exact ⟨a1, a2, by simp [cascade, childSymbol]⟩
        · intro p hp
          simp only [cascade, List.length_cons, List.length_nil, if_pos (by omega : (1:Nat) ≤ 1)] at hp
          rcases mem_prodsOf.mp hp with ⟨c3, hc3, hpc3⟩
          exact Or.inr ⟨c3, by simpa using hc3, hpc3⟩
      · have hlen2 : 2 ≤ ds.length := by omega
        have hlablen : labs.length = ds.length := by simpa using hlen
        have hnodes2 : ∀ c2 ∈ ds, ∃ a2 b2, c2 = PTree.node a2 b2 :=
          fun c2 h => hnodes c2 (List.mem_cons_of_mem _ h)
        obtain ⟨ihtop, ihrec⟩ := ih labs hlablen hlen2 hnodes2
        obtain ⟨a1, b1, rfl⟩ := hnodes c (by simp)
        have hcasc : cascade orig (a :: labs) (PTree.node a1 b1 :: ds) =
            [PTree.node a1 b1,
             PTree.node (synthLabel orig labs) (cascade orig labs ds)] := by
          simp only [cascade, if_neg hle]
        constructor
        · exact ⟨a1, synthLabel orig labs, by rw [hcasc]; simp [childSymbol]⟩
        · intro p hp
          rw [hcasc] at hp
          simp only [prodsOf, productions, List.append_nil] at hp
          rcases List.mem_append.mp hp with h | h
          · exact Or.inr ⟨PTree.node a1 b1, by simp, h⟩
          · rcases List.mem_cons.mp h with h | h
            · subst h
              obtain ⟨s1, s2, hmap⟩ := ihtop
              exact Or.inl ⟨s1, s2, by simpa using hmap⟩
            · rcases ihrec p h with h3 | ⟨c3, hc3, hpc3⟩
              · exact Or.inl h3
              · exact Or.inr ⟨c3, List.mem_cons_of_mem _ hc3, hpc3⟩

theorem PTree.sizeOf_pos (t : PTree) : 0 < sizeOf t := by
  cases t <;> simp_arith

theorem cnf_good_aux :
    ∀ (n : Nat) (t : PTree), sizeOf t ≤ n → ∀ {t' : PTree},
      chomsky_normal_form t = some t' → ∀ p ∈ productions t', GoodProd p := by
  intro n
  induction n with
  | zero =>
    intro t ht
    exact absurd ht (by have := PTree.sizeOf_pos t; omega)
  | succ n ih =>
    intro t ht t' hcnf p hp
    cases t with
    | leaf w =>
      simp only [chomsky_normal_form, Option.some_inj] at hcnf
      subst hcnf
      simp [productions] at hp
    | node l cs =>
      cases cs with
      | nil => simp [chomsky_normal_form] at hcnf
      | cons c cs' =>
        cases c with
        | leaf w =>
          cases cs' with
          | nil =>
            simp only [chomsky_normal_form, Option.some_inj] at hcnf
            subst hcnf
            simp only [productions, prodsOf, List.map, childSymbol,
              List.append_nil, List.mem_singleton] at hp
            subst hp
            exact Or.inl ⟨w, rfl⟩
          | cons c2 b2 => simp [chomsky_normal_form, childLabels] at hcnf
        | node a b =>
          simp only [chomsky_normal_form] at hcnf
          cases hcl : childLabels (PTree.node a b :: cs') with
          | none => rw [hcl] at hcnf; simp at hcnf
          | some labs =>
            rw [hcl] at hcnf
            simp only [Option.map_eq_some'] at hcnf
            obtain ⟨cs2, hc2, rfl⟩ := hcnf
            have hlabs := childLabels_length hcl
            have hcs2len := cnfChildren_length hc2
            have hnodes2 : ∀ c2 ∈ cs2, ∃ a2 b2, c2 = PTree.node a2 b2 := by
              intro c2 h
              obtain ⟨c0, hc0, hcnf0⟩ := cnfChildren_mem hc2 c2 h
              obtain ⟨a0, b0, rfl⟩ := childLabels_nodes hcl c0 hc0
              obtain ⟨ds, rfl⟩ := cnf_node_shape hcnf0
              exact ⟨a0, ds, rfl⟩
            have hrec : ∀ c2 ∈ cs2, ∀ q ∈ productions c2, GoodProd q := by
              intro c2 h q hq
              obtain ⟨c0, hc0, hcnf0⟩ := cnfChildren_mem hc2 c2 h
              have hsz : sizeOf c0 < sizeOf (PTree.node l (PTree.node a b :: cs')) := by
                have h1 := List.sizeOf_lt_of_mem hc0
                simp_arith at h1 ⊢
                omega
              exact ih c0 (by omega) hcnf0 q hq
            simp only [productions, List.mem_cons] at hp
            by_cases hle : cs2.length ≤ 2
            · have hfc : factorChildren l labs cs2 = cs2 := by
                simp [factorChildren, hle]
              rw [hfc] at hp
              rcases hp with rfl | hp
              · refine Or.inr ⟨?_, ?_⟩
                · simp only [List.length_map]
                  have : 1 ≤ cs2.length := by
                    rw [hcs2len]; simp
                  omega
                · intro s hs
                  obtain ⟨c2, hc2m, rfl⟩ := List.mem_map.mp hs
                  obtain ⟨a2, b2, rfl⟩ := hnodes2 c2 hc2m
                  exact ⟨a2, rfl⟩
              · obtain ⟨c2, hc2m, hq⟩ := mem_prodsOf.mp hp
                exact hrec c2 hc2m p hq
            · have hfc : factorChildren l labs cs2 = cascade l labs cs2 := by
                simp [factorChildren, hle]
              rw [hfc] at hp
              obtain ⟨htop, hbelow⟩ :=
                cascade_good l cs2 labs (by omega) (by omega) hnodes2
              rcases hp with rfl | hp
              · obtain ⟨s1, s2, hmap⟩ := htop
                refine Or.inr ⟨?_, ?_⟩
                · simp [hmap]
                · intro s hs
                  rw [hmap] at hs
                  rcases List.mem_cons.mp hs with rfl | hs
                  · exact ⟨s1, rfl⟩
                  · rcases List.mem_cons.mp hs with rfl | hs
                    · exact ⟨s2, rfl⟩
                    · simp at hs
              · rcases hbelow p hp with ⟨s1, s2, hpair⟩ | ⟨c2, hc2m, hq⟩
                · exact Or.inr ⟨Or.inr (by simp [hpair]),
                    by intro s hs; rw [hpair] at hs
                       rcases List.mem_cons.mp hs with rfl | hs
                       · exact ⟨s1, rfl⟩
                       · rcases List.mem_cons.mp hs with rfl | hs
                         · exact ⟨s2, rfl⟩
                         · simp at hs⟩
                · exact hrec c2 hc2m p hq

/-- Every production of a successfully normalized tree has the CNF shape. -/
theorem cnf_good {t t' : PTree} (h : chomsky_normal_form t = some t') :
    ∀ p ∈ productions t', GoodProd p :=
  cnf_good_aux (sizeOf t) t (le_refl _) h

theorem lexical_of_tm {p : Production} {w : String}
    (h : p.rhs = [Symbol.tm w]) : p.is_lexical = true := by
  simp [Production.is_lexical, h]

theorem not_lexical_of_nt {p : Production}
    (h : ∀ s ∈ p.rhs, ∃ a, s = Symbol.nt a) : p.is_lexical = false := by
  obtain ⟨l, rhs⟩ := p
  simp only [Production.is_lexical]
  cases rhs with
  | nil => rfl
  | cons s rest =>
    obtain ⟨a, rfl⟩ := h s (List.mem_cons_self _ _)
    cases rest <;> rfl

/-! ### Characterization of the accumulated sets -/

/-- Folding `addProduction` over a list of productions adds the lexical ones
to `terminal` and the others to `binary`. -/
theorem foldl_addProduction (l : List Production) (st : ExtractState) :
    l.foldl addProduction st =
      { terminal := st.terminal ∪ (l.filter (fun p => p.is_lexical)).toFinset,
        binary := st.binary ∪ (l.filter (fun p => !p.is_lexical)).toFinset } := by
  induction l generalizing st with
  | nil => simp
  | cons p l ih =>
    rw [List.foldl_cons, ih]
    by_cases h : p.is_lexical
    · simp [addProduction, h, Finset.union_insert, Finset.insert_union]
    · simp [addProduction, h, Finset.union_insert, Finset.insert_union]

/-- One loop iteration adds exactly the sentence's contribution, split by
lexicality. -/
theorem processSentence_eq (st : ExtractState) (s : PTree) :
    processSentence st s =
      { terminal :=
          st.terminal ∪ ((sentenceProds s).filter (fun p => p.is_lexical)).toFinset,
        binary :=
          st.binary ∪ ((sentenceProds s).filter (fun p => !p.is_lexical)).toFinset } := by
  unfold processSentence processTree sentenceProds
  by_cases h : PTree.label s ≠ "CODE"
  · simp only [if_pos h]
    cases chomsky_normal_form s with
    | none => simp
    | some t => exact foldl_addProduction _ _
  · simp only [if_neg h]
    simp

/-- Folding the whole loop from any state. -/
theorem foldl_processSentence (sents : List PTree) (st : ExtractState) :
    sents.foldl processSentence st =
      { terminal :=
          st.terminal ∪
            ((sents.flatMap sentenceProds).filter (fun p => p.is_lexical)).toFinset,
        binary :=
          st.binary ∪
            ((sents.flatMap sentenceProds).filter (fun p => !p.is_lexical)).toFinset } := by
  induction sents generalizing st with
  | nil => simp
  | cons s sents ih =>
    rw [List.foldl_cons, ih, processSentence_eq]
    simp [List.filter_append, Finset.union_assoc]

/-- The two output sets are exactly the per-sentence contributions, pooled
and split by lexicality. -/
theorem extract_eq (sents : List PTree) :
    extract sents =
      { terminal :=
          ((sents.flatMap sentenceProds).filter (fun p => p.is_lexical)).toFinset,
        binary :=
          ((sents.flatMap sentenceProds).filter (fun p => !p.is_lexical)).toFinset } := by
  unfold extract
  rw [foldl_processSentence]
  simp

theorem mem_extract_terminal {sents : List PTree} {p : Production} :
    p ∈ (extract sents).terminal ↔
      ∃ s ∈ sents, p ∈ sentenceProds s ∧ p.is_lexical = true := by
  rw [extract_eq]
  simp only [List.mem_toFinset, List.mem_filter, List.mem_flatMap]
  constructor
  · rintro ⟨⟨s, hs, hp⟩, hlex⟩
    exact ⟨s, hs, hp, hlex⟩
  · rintro ⟨s, hs, hp, hlex⟩
    exact ⟨⟨s, hs, hp⟩, hlex⟩

theorem mem_extract_binary {sents : List PTree} {p : Production} :
    p ∈ (extract sents).binary ↔
      ∃ s ∈ sents, p ∈ sentenceProds s ∧ p.is_lexical = false := by
  rw [extract_eq]
  simp only [List.mem_toFinset, List.mem_filter, List.mem_flatMap,
    Bool.not_eq_true']
  constructor
  · rintro ⟨⟨s, hs, hp⟩, hlex⟩
    exact ⟨s, hs, hp, hlex⟩
  · rintro ⟨s, hs, hp, hlex⟩
    exact ⟨⟨s, hs, hp⟩, hlex⟩

/-- Everything a sentence contributes has the CNF shape. -/
theorem sentenceProds_good {s : PTree} {p : Production}
    (hp : p ∈ sentenceProds s) : GoodProd p := by
  unfold sentenceProds at hp
  by_cases h : PTree.label s ≠ "CODE"
  · rw [if_pos h] at hp
    cases hc : chomsky_normal_form s with
    | none => rw [hc] at hp; simp at hp
    | some t => rw [hc] at hp; exact cnf_good hc p hp
  · rw [if_neg h] at hp; simp at hp

/-- A sentence whose root label is `CODE` contributes nothing. -/
theorem sentenceProds_code {s : PTree} (h : PTree.label s = "CODE") :
    sentenceProds s = [] := by
  unfold sentenceProds
  rw [if_neg (by simp [h])]

/-- A sentence whose normalization fails contributes nothing. -/
theorem sentenceProds_fail {s : PTree} (h : chomsky_normal_form s = none) :
    sentenceProds s = [] := by
  unfold sentenceProds
  rw [h]
  split <;> rfl

/-- A contribution-free sentence leaves every loop iteration unchanged. -/
theorem processSentence_of_nil {s : PTree} (h : sentenceProds s = [])
    (st : ExtractState) : processSentence st s = st := by
  rw [processSentence_eq, h]
  simp

/-- Shared shape lemma: every member of `binary` is a unary or binary rule
over non-terminals, and every member of `terminal` is a single-terminal
lexical rule. -/
theorem extract_shape (sents : List PTree) :
    (∀ p ∈ (extract sents).binary,
        (p.rhs.length = 1 ∨ p.rhs.length = 2) ∧
          ∀ s ∈ p.rhs, ∃ a, s = Symbol.nt a) ∧
      ∀ p ∈ (extract sents).terminal, ∃ w, p.rhs = [Symbol.tm w] := by
  constructor
  · intro p hp
    obtain ⟨s, _, hmem, hlex⟩ := mem_extract_binary.mp hp
    rcases sentenceProds_good hmem with ⟨w, hw⟩ | hgood
    · rw [lexical_of_tm hw] at hlex
      exact absurd hlex (by simp)
    · exact hgood
  · intro p hp
    obtain ⟨s, _, hmem, hlex⟩ := mem_extract_terminal.mp hp
    rcases sentenceProds_good hmem with ⟨w, hw⟩ | ⟨_, hnt⟩
    · exact ⟨w, hw⟩
    · rw [not_lexical_of_nt hnt] at hlex
      exact absurd hlex (by simp)

/-- Dropping a contribution-free sentence anywhere in the corpus does not
change the result. -/
theorem extract_drop {s : PTree} (h : sentenceProds s = [])
    (xs ys : List PTree) : extract (xs ++ s :: ys) = extract (xs ++ ys) := by
  rw [extract_eq, extract_eq]
  simp [List.flatMap_append, h]

/-! ### Concrete example trees -/

/-- The spec's example sentence `(S (NP (DT the) (NN cat)) (VP (VBZ sat)))`. -/
def exTree : PTree :=
  .node "S" [.node "NP" [.node "DT" [.leaf "the"], .node "NN" [.leaf "cat"]],
             .node "VP" [.node "VBZ" [.leaf "sat"]]]

/-- The spec's ternary example
`(S (NP (DT the) (JJ big) (NN cat)) (VP (VBZ sat)))`. -/
def exTernary : PTree :=
  .node "S" [.node "NP" [.node "DT" [.leaf "the"], .node "JJ" [.leaf "big"],
                         .node "NN" [.leaf "cat"]],
             .node "VP" [.node "VBZ" [.leaf "sat"]]]

/-- A degenerate sentence (a node with zero children) whose normalization
fails. -/
def exBad : PTree := .node "S" []

/-- A sentence whose root label is the `CODE` sentinel. -/
def exCode : PTree := .node "CODE" [.node "NN" [.leaf "formatting"]]

/-- A sentence whose root label is not `CODE` but which contains an internal
node labeled `CODE`. -/
def exInnerCode : PTree :=
  .node "S" [.node "CODE" [.node "SYM" [.leaf "x"]],
             .node "VP" [.node "VBZ" [.leaf "go"]]]

/-! ### The claims -/

/-- C1: a sentence whose processing raises an exception (modelled as
`chomsky_normal_form` returning `none`) contributes zero productions to both
output sets, and a corpus with one malformed sentence among well-formed ones
yields exactly the result of the well-formed ones alone. -/
theorem C1_failed_sentence_contributes_nothing (st : ExtractState) (s : PTree)
    (xs ys : List PTree) (h : chomsky_normal_form s = none) :
    processSentence st s = st ∧ extract (xs ++ s :: ys) = extract (xs ++ ys) :=
  ⟨processSentence_of_nil (sentenceProds_fail h) st,
   extract_drop (sentenceProds_fail h) xs ys⟩

/-- Witness for C1 at the zero-children tree `(S)` inserted into a one-
sentence corpus. -/
theorem C1_witness :
    processSentence { terminal := ∅, binary := ∅ } exBad =
        { terminal := ∅, binary := ∅ } ∧
      extract ([exTree] ++ exBad :: []) = extract ([exTree] ++ []) :=
  C1_failed_sentence_contributes_nothing
    { terminal := ∅, binary := ∅ } exBad [exTree] [] (by rfl)

/-- C2: every production in `binary` has an RHS of exactly one or two
symbols, all non-terminal labels, and every production in `terminal` has an
RHS of exactly one symbol, a terminal token. -/
theorem C2_shape_invariant (sents : List PTree) :
    (∀ p ∈ (extract sents).binary,
        (p.rhs.length = 1 ∨ p.rhs.length = 2) ∧
          ∀ s ∈ p.rhs, ∃ a, s = Symbol.nt a) ∧
      ∀ p ∈ (extract sents).terminal, ∃ w, p.rhs = [Symbol.tm w] :=
  extract_shape sents

/-- Witness for C2 at the one-sentence corpus `[exTree]`, on the binary
production `S -> NP VP` and the terminal production `DT -> the`. -/
theorem C2_witness :
    (((Production.mk "S" [Symbol.nt "NP", Symbol.nt "VP"]).rhs.length = 1 ∨
        (Production.mk "S" [Symbol.nt "NP", Symbol.nt "VP"]).rhs.length = 2) ∧
      ∀ s ∈ (Production.mk "S" [Symbol.nt "NP", Symbol.nt "VP"]).rhs,
        ∃ a, s = Symbol.nt a) ∧
      ∃ w, (Production.mk "DT" [Symbol.tm "the"]).rhs = [Symbol.tm w] :=
  ⟨(C2_shape_invariant [exTree]).1 _ (by decide),
   (C2_shape_invariant [exTree]).2 _ (by decide)⟩

/-- C3: every production emitted from a successfully processed sentence is a
member of exactly one of the two output sets: of `terminal` if it is
lexical, of `binary` otherwise, never of both and never of neither. -/
theorem C3_partition (sents : List PTree) (s : PTree) (hs : s ∈ sents)
    (p : Production) (hp : p ∈ sentenceProds s) :
    (p ∈ (extract sents).terminal ∧ p ∉ (extract sents).binary) ∨
      (p ∈ (extract sents).binary ∧ p ∉ (extract sents).terminal) := by
  cases hlex : p.is_lexical with
  | true =>
    refine Or.inl ⟨mem_extract_terminal.mpr ⟨s, hs, hp, hlex⟩, ?_⟩
    intro hmem
    obtain ⟨_, _, _, hfalse⟩ := mem_extract_binary.mp hmem
    rw [hlex] at hfalse
    exact absurd hfalse (by simp)
  | false =>
    refine Or.inr ⟨mem_extract_binary.mpr ⟨s, hs, hp, hlex⟩, ?_⟩
    intro hmem
    obtain ⟨_, _, _, htrue⟩ := mem_extract_terminal.mp hmem
    rw [hlex] at htrue
    exact absurd htrue (by simp)

/-- Witness for C3: the production `DT -> the` emitted from `exTree`. -/
theorem C3_witness :
    (Production.mk "DT" [Symbol.tm "the"] ∈ (extract [exTree]).terminal ∧
        Production.mk "DT" [Symbol.tm "the"] ∉ (extract [exTree]).binary) ∨
      (Production.mk "DT" [Symbol.tm "the"] ∈ (extract [exTree]).binary ∧
        Production.mk "DT" [Symbol.tm "the"] ∉ (extract [exTree]).terminal) :=
  C3_partition [exTree] exTree (List.mem_cons_self _ _) _ (by decide)

/-- C4: a sentence whose root label is `CODE` is skipped entirely and
contributes zero productions to either set. -/
theorem C4_code_skip (st : ExtractState) (s : PTree) (xs ys : List PTree)
    (h : PTree.label s = "CODE") :
    processSentence st s = st ∧ extract (xs ++ s :: ys) = extract (xs ++ ys) :=
  ⟨processSentence_of_nil (sentenceProds_code h) st,
   extract_drop (sentenceProds_code h) xs ys⟩

/-- Witness for C4 at a concrete `CODE`-rooted sentence. -/
theorem C4_witness :
    processSentence { terminal := ∅, binary := ∅ } exCode =
        { terminal := ∅, binary := ∅ } ∧
      extract ([exTree] ++ exCode :: []) = extract ([exTree] ++ []) :=
  C4_code_skip { terminal := ∅, binary := ∅ } exCode [exTree] [] (by rfl)

/-- C5: a per-sentence failure (modelled as `chomsky_normal_form` returning
`none`) is caught at per-sentence granularity: the failed sentence is a
no-op and the loop continues with the remaining sentences, so no failure is
fatal to the run. -/
theorem C5_failure_caught_per_sentence (s : PTree) (xs ys : List PTree)
    (h : chomsky_normal_form s = none) :
    extract (xs ++ s :: ys) = List.foldl processSentence (extract xs) ys := by
  unfold extract
  rw [List.foldl_append, List.foldl_cons,
    processSentence_of_nil (sentenceProds_fail h)]

/-- Witness for C5 at the zero-children tree `(S)`. -/
theorem C5_witness :
    extract ([exTree] ++ exBad :: [exInnerCode]) =
      List.foldl processSentence (extract [exTree]) [exInnerCode] :=
  C5_failure_caught_per_sentence exBad [exTree] [exInnerCode] (by rfl)

/-- C6: the ternary `NP` of `(S (NP (DT the) (JJ big) (NN cat)) (VP (VBZ
sat)))` is rewritten into exactly two binary productions introducing the one
synthetic label `NP|<JJ-NN>` (the binary set of that corpus is listed in
full), and in general no production with three or more RHS symbols is ever
added to either set. -/
theorem C6_ternary_binarized :
    (extract [exTernary]).binary =
        {Production.mk "S" [Symbol.nt "NP", Symbol.nt "VP"],
         Production.mk "NP" [Symbol.nt "DT", Symbol.nt "NP|<JJ-NN>"],
         Production.mk "NP|<JJ-NN>" [Symbol.nt "JJ", Symbol.nt "NN"],
         Production.mk "VP" [Symbol.nt "VBZ"]} ∧
      ∀ (sents : List PTree) (p : Production),
        p ∈ (extract sents).terminal ∪ (extract sents).binary →
          p.rhs.length ≤ 2 := by
  constructor
  · decide
  · intro sents p hp
    rcases Finset.mem_union.mp hp with hp | hp
    · obtain ⟨w, hw⟩ := (extract_shape sents).2 p hp
      simp [hw]
    · obtain ⟨hlen, _⟩ := (extract_shape sents).1 p hp
      omega

/-- Witness for C6's universally quantified part, at the ternary example
corpus and the production `NP -> DT NP|<JJ-NN>`. -/
theorem C6_witness :
    (Production.mk "NP" [Symbol.nt "DT", Symbol.nt "NP|<JJ-NN>"]).rhs.length ≤ 2 :=
  C6_ternary_binarized.2 [exTernary] _ (by decide)

/-- C7: inserting a production that is already present changes nothing
(insertion is idempotent), a duplicated sentence changes nothing, and
running the extractor twice over the same corpus yields identical sets. -/
theorem C7_dedup_idempotent :
    (∀ (st : ExtractState) (p : Production),
        addProduction (addProduction st p) p = addProduction st p) ∧
      (∀ (s : PTree) (ys : List PTree), extract (s :: s :: ys) = extract (s :: ys)) ∧
      ∀ sents : List PTree, extract sents = extract sents := by
  refine ⟨?_, ?_, fun _ => rfl⟩
  · intro st p
    cases h : p.is_lexical with
    | true => simp [addProduction, h]
    | false => simp [addProduction, h]
  · intro s ys
    rw [extract_eq, extract_eq]
    simp [List.filter_append, Finset.union_assoc]

/-- C8: the output sets are the union of the independent per-sentence
contributions, split by lexicality, and are invariant under any permutation
of the corpus. -/
theorem C8_union_of_contributions :
    (∀ sents : List PTree,
        (extract sents).terminal =
          ((sents.flatMap sentenceProds).filter (fun p => p.is_lexical)).toFinset ∧
        (extract sents).binary =
          ((sents.flatMap sentenceProds).filter (fun p => !p.is_lexical)).toFinset) ∧
      ∀ s1 s2 : List PTree, s1.Perm s2 → extract s1 = extract s2 := by
  constructor
  · intro sents
    rw [extract_eq]
    exact ⟨rfl, rfl⟩
  · intro s1 s2 hperm
    rw [extract_eq, extract_eq]
    have h1 := (hperm.flatMap_right sentenceProds).filter (fun p => p.is_lexical)
    have h2 := (hperm.flatMap_right sentenceProds).filter (fun p => !p.is_lexical)
    rw [List.toFinset_eq_of_perm _ _ h1, List.toFinset_eq_of_perm _ _ h2]

/-- Witness for C8's permutation part, swapping the two sentences of a
two-sentence corpus. -/
theorem C8_witness : extract [exCode, exTree] = extract [exTree, exCode] :=
  C8_union_of_contributions.2 [exCode, exTree] [exTree, exCode]
    (List.Perm.swap _ _ _)

/-- C9: for `(S (NP (DT the) (NN cat)) (VP (VBZ sat)))`, the binary set
includes `S -> NP VP` and `NP -> DT NN`, and the terminal set includes
`DT -> the`, `NN -> cat` and `VBZ -> sat`. -/
theorem C9_example_extraction :
    Production.mk "S" [Symbol.nt "NP", Symbol.nt "VP"] ∈ (extract [exTree]).binary ∧
      Production.mk "NP" [Symbol.nt "DT", Symbol.nt "NN"] ∈ (extract [exTree]).binary ∧
      Production.mk "DT" [Symbol.tm "the"] ∈ (extract [exTree]).terminal ∧
      Production.mk "NN" [Symbol.tm "cat"] ∈ (extract [exTree]).terminal ∧
      Production.mk "VBZ" [Symbol.tm "sat"] ∈ (extract [exTree]).terminal := by
  decide

/-- C10: the `CODE` test inspects only the root label: any sentence whose
root label is not `CODE` is processed by the normal `try`-block body, and a
tree with an internal `CODE` node yields its productions — including ones
with LHS `CODE` — in the output sets. -/
theorem C10_root_only_code_check :
    (∀ (st : ExtractState) (s : PTree), PTree.label s ≠ "CODE" →
        processSentence st s = processTree st s) ∧
      PTree.label exInnerCode ≠ "CODE" ∧
      Production.mk "CODE" [Symbol.nt "SYM"] ∈ (extract [exInnerCode]).binary ∧
      Production.mk "S" [Symbol.nt "CODE", Symbol.nt "VP"] ∈
        (extract [exInnerCode]).binary ∧
      Production.mk "SYM" [Symbol.tm "x"] ∈ (extract [exInnerCode]).terminal := by
  refine ⟨?_, by decide, by decide, by decide, by decide⟩
  intro st s h
  unfold processSentence
  rw [if_pos h]

/-- Witness for C10's universally quantified part, at the tree with an
internal `CODE` node. -/
theorem C10_witness :
    processSentence { terminal := ∅, binary := ∅ } exInnerCode =
      processTree { terminal := ∅, binary := ∅ } exInnerCode :=
  C10_root_only_code_check.1 { terminal := ∅, binary := ∅ } exInnerCode
    (by decide)

end Glif
